import Mathlib

/-!
Verification development for the codeblitz-browserfs DynamicRequest backend.

The development shallowly embeds the three core components of the repository:

* `RW` — the cooperative reader-writer lock (`src/generic/rwmutex.ts`,
  class `RWMutex`), embedded as an explicit state machine.  Callback
  invocations deferred through `setImmediate` are modelled as scheduled
  wakeups that fire as separate steps, so every interleaving the
  single-threaded event loop can produce is covered.
* `Coalesce` — the promise-coalescing cache (`wrap` and `finallyPromise`
  in the DynamicRequest backend source), embedded as a state machine over
  the pending-key table.
* `DynFS` — the on-demand loader `loadEntry` and the raw/wrapped
  filesystem operations `stat`, `open`, `readdir` of the DynamicRequest
  backend, embedded as pure functions over a path-indexed map, with the
  directory-listing provider supplied as a pure oracle.
-/

namespace RW

/-- The bias constant `rwmutexMaxReaders = 1 << 30` from rwmutex.ts. -/
def rwmutexMaxReaders : Int := 1073741824

/-- State of the reader-writer lock together with the ghost bookkeeping
needed to phrase mutual exclusion: which actors currently hold the lock in
reader role (`activeReaders`) or writer role (`activeWriters`), and which
callbacks have been handed to `setImmediate` but have not fired yet
(`schedReaders`, `schedWriters`, `schedHandoff`).  The fields
`readerCount`, `readerWait`, `readerWaiters`, `writerWaiters` are the
private fields of class `RWMutex`; `mutexLocked` and `mutexQueue` are the
state of the base `Mutex` it extends. -/
structure St where
  readerCount : Int
  readerWait : Int
  readerWaiters : List Nat
  writerWaiters : List Nat
  mutexLocked : Bool
  mutexQueue : List Nat
  schedReaders : List Nat
  schedWriters : List Nat
  schedHandoff : List Nat
  activeReaders : List Nat
  activeWriters : List Nat
deriving DecidableEq

/-- The freshly constructed lock: all counters zero, all queues empty. -/
def init : St := ⟨0, 0, [], [], false, [], [], [], [], [], []⟩

/-- `RWMutex.rLock`: increment the counter; if it went negative a writer
has claimed priority, so the reader queues, otherwise its callback runs
synchronously and it becomes an active reader. -/
def rLock (s : St) (r : Nat) : St :=
  if s.readerCount + 1 < 0 then
    { s with readerCount := s.readerCount + 1,
             readerWaiters := s.readerWaiters ++ [r] }
  else
    { s with readerCount := s.readerCount + 1,
             activeReaders := s.activeReaders ++ [r] }

/-- `RWMutex.rUnlock`: `none` models the thrown
`rUnlock of a non-locked rwmutex` error.  Otherwise decrement the counter;
while a writer has claimed priority also decrement `readerWait`, and when
the last awaited reader leaves, shift the queued writer and schedule it
through `setImmediate`. -/
def rUnlock (s : St) (r : Nat) : Option St :=
  if s.readerCount = 0 ∨ s.readerCount = -rwmutexMaxReaders then none
  else if s.readerCount - 1 < 0 then
    if s.readerWait - 1 = 0 then
      match s.writerWaiters with
      | [] => some { s with readerCount := s.readerCount - 1,
                            readerWait := s.readerWait - 1,
                            activeReaders := s.activeReaders.erase r }
      | w :: rest => some { s with readerCount := s.readerCount - 1,
                                   readerWait := s.readerWait - 1,
                                   activeReaders := s.activeReaders.erase r,
                                   writerWaiters := rest,
                                   schedWriters := s.schedWriters ++ [w] }
    else some { s with readerCount := s.readerCount - 1,
                       readerWait := s.readerWait - 1,
                       activeReaders := s.activeReaders.erase r }
  else some { s with readerCount := s.readerCount - 1,
                     activeReaders := s.activeReaders.erase r }

/-- The callback `RWMutex.lock` passes to `super.lock`: runs once the base
mutex is held.  It records the pre-existing readers in `readerWait`,
subtracts the bias from the counter, and either queues the writer (readers
still active) or lets it proceed. -/
def lockBody (s : St) (w : Nat) : St :=
  if s.readerWait + s.readerCount ≠ 0 then
    { s with readerWait := s.readerWait + s.readerCount,
             readerCount := s.readerCount - rwmutexMaxReaders,
             writerWaiters := s.writerWaiters ++ [w] }
  else
    { s with readerWait := s.readerWait + s.readerCount,
             readerCount := s.readerCount - rwmutexMaxReaders,
             activeWriters := s.activeWriters ++ [w] }

/-- `RWMutex.lock`, including the base `Mutex.lock` it delegates to.
Modelled from the spec: the base mutual-exclusion lock keeps a FIFO queue
of pending acquirers with exactly one holder; an acquirer finding the lock
free proceeds at once, otherwise it queues. -/
def lock (s : St) (w : Nat) : St :=
  if s.mutexLocked then { s with mutexQueue := s.mutexQueue ++ [w] }
  else lockBody { s with mutexLocked := true } w

/-- `RWMutex.unlock`, including the base `Mutex.unlock` it delegates to.
`none` models the thrown `unlock of a non-locked rwmutex` error.
Otherwise the bias is added back, every queued reader is scheduled through
`setImmediate`, and the base lock is released.  Modelled from the spec for
the base part: release hands off to the next queued acquirer, if any, on a
future scheduling tick. -/
def unlock (s : St) (w : Nat) : Option St :=
  if 0 ≤ s.readerCount then none
  else match s.mutexQueue with
    | [] => some { s with readerCount := s.readerCount + rwmutexMaxReaders,
                          activeWriters := s.activeWriters.erase w,
                          schedReaders := s.schedReaders ++ s.readerWaiters,
                          readerWaiters := [],
                          mutexLocked := false }
    | w2 :: rest =>
        some { s with readerCount := s.readerCount + rwmutexMaxReaders,
                      activeWriters := s.activeWriters.erase w,
                      schedReaders := s.schedReaders ++ s.readerWaiters,
                      readerWaiters := [],
                      mutexQueue := rest,
                      schedHandoff := s.schedHandoff ++ [w2] }

/-- Events of the cooperative scheduling model: the four public calls,
plus the firing of a callback that `setImmediate` deferred (a queued
reader waking, a queued writer waking, the base-mutex handoff running the
writer's claim callback). -/
inductive Ev
  | rlock (r : Nat)
  | runlock (r : Nat)
  | wlock (w : Nat)
  | wunlock (w : Nat)
  | fireReader
  | fireWriter
  | fireHandoff
deriving DecidableEq

/-- One step of the model.  Well-formedness (balance) is enforced here:
`runlock` may only be issued by an actor currently holding the lock in
reader role and `wunlock` by the actor holding it in writer role.  `none`
means the event is not enabled (or the code would throw). -/
def exec (s : St) : Ev → Option St
  | .rlock r => some (rLock s r)
  | .runlock r => if r ∈ s.activeReaders then rUnlock s r else none
  | .wlock w => some (lock s w)
  | .wunlock w => if w ∈ s.activeWriters then unlock s w else none
  | .fireReader =>
      match s.schedReaders with
      | [] => none
      | r :: rest => some { s with schedReaders := rest,
                                   activeReaders := s.activeReaders ++ [r] }
  | .fireWriter =>
      match s.schedWriters with
      | [] => none
      | w :: rest => some { s with schedWriters := rest,
                                   activeWriters := s.activeWriters ++ [w] }
  | .fireHandoff =>
      match s.schedHandoff with
      | [] => none
      | w :: rest => some (lockBody { s with schedHandoff := rest } w)

/-- Run a sequence of events from a state. -/
def run (s : St) : List Ev → Option St
  | [] => some s
  | e :: tr =>
      match exec s e with
      | none => none
      | some s2 => run s2 tr

/-- Number of `rlock` events in a trace. -/
def rlockCount : List Ev → Nat
  | [] => 0
  | .rlock _ :: tr => rlockCount tr + 1
  | .runlock _ :: tr => rlockCount tr
  | .wlock _ :: tr => rlockCount tr
  | .wunlock _ :: tr => rlockCount tr
  | .fireReader :: tr => rlockCount tr
  | .fireWriter :: tr => rlockCount tr
  | .fireHandoff :: tr => rlockCount tr

/-- Contribution of one event to `rlockCount`. -/
def rlockInc : Ev → Nat
  | .rlock _ => 1
  | _ => 0

/-- Total number of readers currently tracked by the counter: active,
scheduled to wake, or queued. -/
def readerSum (s : St) : Nat :=
  s.activeReaders.length + s.schedReaders.length + s.readerWaiters.length

/-- Invariant, reader phase: the counter is non-negative and equal to the
number of readers that have acquired (active or about to fire); no writer
has claimed priority; the base mutex is either free or is being handed off
to the next writer. -/
def InvA (s : St) : Prop :=
  s.readerCount = (s.activeReaders.length + s.schedReaders.length : Int) ∧
  s.readerWaiters = [] ∧
  s.readerWait = 0 ∧
  s.writerWaiters = [] ∧
  s.schedWriters = [] ∧
  s.activeWriters = [] ∧
  ((s.mutexLocked = false ∧ s.mutexQueue = [] ∧ s.schedHandoff = []) ∨
   (s.mutexLocked = true ∧ s.schedHandoff.length = 1))

/-- Invariant, writer phase: one writer has claimed priority (subtracted
the bias).  The counter packs all readers minus the bias, `readerWait`
counts exactly the readers the writer still awaits, and the claimed writer
sits in exactly one of `writerWaiters`, `schedWriters`, `activeWriters`;
it only leaves the waiting queue after the awaited readers are gone. -/
def InvB (s : St) : Prop :=
  s.readerCount = (s.activeReaders.length + s.schedReaders.length +
    s.readerWaiters.length : Int) - rwmutexMaxReaders ∧
  s.readerWait = (s.activeReaders.length + s.schedReaders.length : Int) ∧
  s.writerWaiters.length + s.schedWriters.length + s.activeWriters.length = 1 ∧
  (s.activeReaders.length + s.schedReaders.length ≠ 0 →
     s.schedWriters = [] ∧ s.activeWriters = []) ∧
  s.mutexLocked = true ∧
  s.schedHandoff = []

/-- The inductive invariant of the reader-writer lock model. -/
def Inv (s : St) : Prop := InvA s ∨ InvB s

theorem maxReaders_pos : 0 < rwmutexMaxReaders := by decide

theorem eq_singleton_of_mem {l : List Nat} {w : Nat} (h1 : l.length = 1)
    (hw : w ∈ l) : l = [w] := by
  cases l with
  | nil => simp at h1
  | cons a t =>
    cases t with
    | nil => simp only [List.mem_singleton] at hw; simp [hw]
    | cons b t2 => simp at h1


/-- Running the writer's claim callback from a reader-phase state with the
base mutex held produces a writer-phase state. -/
theorem lockBody_invB {s : St} {w : Nat}
    (h1 : s.readerCount = (s.activeReaders.length + s.schedReaders.length : Int))
    (h2 : s.readerWaiters = []) (h3 : s.readerWait = 0)
    (h4 : s.writerWaiters = []) (h5 : s.schedWriters = [])
    (h6 : s.activeWriters = [])
    (hml : s.mutexLocked = true) (hmh : s.schedHandoff = []) :
    InvB (lockBody s w) ∧ readerSum (lockBody s w) = readerSum s := by
  have h2l : s.readerWaiters.length = 0 := by rw [h2]; rfl
  have h4l : s.writerWaiters.length = 0 := by rw [h4]; rfl
  have h5l : s.schedWriters.length = 0 := by rw [h5]; rfl
  have h6l : s.activeWriters.length = 0 := by rw [h6]; rfl
  by_cases hc : s.readerWait + s.readerCount ≠ 0
  · rw [lockBody, if_pos hc]
    constructor
    · dsimp only [InvB]
      simp only [List.length_append, List.length_cons, List.length_nil]
      refine ⟨by omega, by omega, by omega, ?_, hml, hmh⟩
      intro _
      exact ⟨h5, h6⟩
    · dsimp only [readerSum]
  · rw [lockBody, if_neg hc]
    push_neg at hc
    constructor
    · dsimp only [InvB]
      simp only [List.length_append, List.length_cons, List.length_nil]
      refine ⟨by omega, by omega, by omega, ?_, hml, hmh⟩
      intro hne
      exfalso
      omega
    · dsimp only [readerSum]

/-- One-step preservation of the invariant, assuming the total number of
readers stays below the bias constant. -/
theorem exec_preserves {s s2 : St} {e : Ev} (hI : Inv s)
    (hb : (readerSum s : Int) + rlockInc e < rwmutexMaxReaders)
    (he : exec s e = some s2) :
    Inv s2 ∧ readerSum s2 ≤ readerSum s + rlockInc e := by
  have hM := maxReaders_pos
  cases e with
  | rlock r =>
    simp only [exec, Option.some.injEq] at he
    subst he
    simp only [rlockInc] at hb ⊢
    simp only [readerSum] at hb
    rcases hI with ⟨h1, h2, h3, h4, h5, h6, hm⟩ | ⟨h1, h2, h3, h4, h5, h6⟩
    · have hge : ¬ s.readerCount + 1 < 0 := by omega
      rw [rLock, if_neg hge]
      refine ⟨Or.inl ?_, ?_⟩
      · dsimp only [InvA]
        simp only [List.length_append, List.length_cons, List.length_nil]
        exact ⟨by omega, h2, h3, h4, h5, h6, hm⟩
      · dsimp only [readerSum]
        simp only [List.length_append, List.length_cons, List.length_nil]
        omega
    · have hlt : s.readerCount + 1 < 0 := by omega
      rw [rLock, if_pos hlt]
      refine ⟨Or.inr ?_, ?_⟩
      · dsimp only [InvB]
        simp only [List.length_append, List.length_cons, List.length_nil]
        exact ⟨by omega, h2, h3, h4, h5, h6⟩
      · dsimp only [readerSum]
        simp only [List.length_append, List.length_cons, List.length_nil]
        omega
  | runlock r =>
    simp only [exec] at he
    by_cases hr : r ∈ s.activeReaders
    swap
    · rw [if_neg hr] at he
      exact absurd he (by simp)
    rw [if_pos hr] at he
    have hAR : 0 < s.activeReaders.length :=
      List.length_pos.mpr (List.ne_nil_of_mem hr)
    have hce : (s.activeReaders.erase r).length = s.activeReaders.length - 1 :=
      List.length_erase_of_mem hr
    simp only [rlockInc] at hb ⊢
    simp only [readerSum] at hb
    rcases hI with ⟨h1, h2, h3, h4, h5, h6, hm⟩ | ⟨h1, h2, h3, h4, h5, h6⟩
    · -- reader phase: counter stays non-negative
      have hg : ¬ (s.readerCount = 0 ∨ s.readerCount = -rwmutexMaxReaders) := by
        omega
      have hnn : ¬ s.readerCount - 1 < 0 := by omega
      rw [rUnlock, if_neg hg, if_neg hnn, Option.some.injEq] at he
      subst he
      refine ⟨Or.inl ?_, ?_⟩
      · dsimp only [InvA]
        exact ⟨by omega, h2, h3, h4, h5, h6, hm⟩
      · dsimp only [readerSum]
        omega
    · -- writer phase
      have hg : ¬ (s.readerCount = 0 ∨ s.readerCount = -rwmutexMaxReaders) := by
        omega
      have hneg : s.readerCount - 1 < 0 := by omega
      by_cases hz : s.readerWait - 1 = 0
      · have hARSR : s.activeReaders.length + s.schedReaders.length ≠ 0 := by
          omega
        obtain ⟨h5w, h6w⟩ := h4 hARSR
        have h5wl : s.schedWriters.length = 0 := by rw [h5w]; rfl
        have h6wl : s.activeWriters.length = 0 := by rw [h6w]; rfl
        have hWW : s.writerWaiters.length = 1 := by omega
        cases hww : s.writerWaiters with
        | nil => rw [hww] at hWW; simp at hWW
        | cons w rest =>
          have hrest : rest.length = 0 := by
            rw [hww] at hWW
            simpa using hWW
          rw [rUnlock, if_neg hg, if_pos hneg, if_pos hz, hww,
            Option.some.injEq] at he
          subst he
          refine ⟨Or.inr ?_, ?_⟩
          · dsimp only [InvB]
            simp only [List.length_append, List.length_cons, List.length_nil]
            refine ⟨by omega, by omega, by omega, ?_, h5, h6⟩
            intro hcon
            exfalso
            omega
          · dsimp only [readerSum]
            omega
      · rw [rUnlock, if_neg hg, if_pos hneg, if_neg hz,
          Option.some.injEq] at he
        subst he
        refine ⟨Or.inr ?_, ?_⟩
        · dsimp only [InvB]
          refine ⟨by omega, by omega, h3, ?_, h5, h6⟩
          intro _
          exact h4 (by omega)
        · dsimp only [readerSum]
          omega
  | wlock w =>
    simp only [exec, Option.some.injEq] at he
    subst he
    simp only [rlockInc] at hb ⊢
    simp only [readerSum] at hb
    rcases hI with ⟨h1, h2, h3, h4, h5, h6, hm⟩ | ⟨h1, h2, h3, h4, h5, h6⟩
    · rcases hm with ⟨hml, hmq, hmh⟩ | ⟨hml, hmh⟩
      · -- base mutex free: the claim callback runs synchronously
        have hnl : ¬ s.mutexLocked = true := by simp [hml]
        rw [lock, if_neg hnl]
        have hlb := lockBody_invB (s := { s with mutexLocked := true }) (w := w)
          h1 h2 h3 h4 h5 h6 rfl hmh
        refine ⟨Or.inr hlb.1, ?_⟩
        rw [hlb.2]
        dsimp only [readerSum]
        omega
      · -- base mutex held: the writer queues behind it
        rw [lock, if_pos hml]
        refine ⟨Or.inl ?_, ?_⟩
        · dsimp only [InvA]
          exact ⟨h1, h2, h3, h4, h5, h6, Or.inr ⟨hml, hmh⟩⟩
        · dsimp only [readerSum]
          omega
    · rw [lock, if_pos h5]
      refine ⟨Or.inr ?_, ?_⟩
      · dsimp only [InvB]
        exact ⟨h1, h2, h3, h4, h5, h6⟩
      · dsimp only [readerSum]
        omega
  | wunlock w =>
    simp only [exec] at he
    by_cases hw : w ∈ s.activeWriters
    swap
    · rw [if_neg hw] at he
      exact absurd he (by simp)
    rw [if_pos hw] at he
    simp only [rlockInc] at hb ⊢
    simp only [readerSum] at hb
    rcases hI with ⟨h1, h2, h3, h4, h5, h6, hm⟩ | ⟨h1, h2, h3, h4, h5, h6⟩
    · rw [h6] at hw
      simp at hw
    · have hAW : 0 < s.activeWriters.length :=
        List.length_pos.mpr (List.ne_nil_of_mem hw)
      have hARSR : s.activeReaders.length + s.schedReaders.length = 0 := by
        by_contra hc
        obtain ⟨-, h0⟩ := h4 hc
        rw [h0] at hAW
        simp at hAW
      have herase : (s.activeWriters.erase w).length =
          s.activeWriters.length - 1 := List.length_erase_of_mem hw
      have heraseNil : s.activeWriters.erase w = [] := by
        apply List.length_eq_zero.mp
        omega
      have hWW : s.writerWaiters = [] := by
        apply List.length_eq_zero.mp
        omega
      have hSW : s.schedWriters = [] := by
        apply List.length_eq_zero.mp
        omega
      have hneg : ¬ 0 ≤ s.readerCount := by omega
      cases hmq : s.mutexQueue with
      | nil =>
        rw [unlock, if_neg hneg, hmq, Option.some.injEq] at he
        subst he
        refine ⟨Or.inl ?_, ?_⟩
        · dsimp only [InvA]
          simp only [List.length_append, List.length_cons, List.length_nil]
          exact ⟨by omega, by trivial, by omega, hWW, hSW, heraseNil,
            Or.inl ⟨by trivial, by trivial, h6⟩⟩
        · dsimp only [readerSum]
          simp only [List.length_append, List.length_cons, List.length_nil]
          omega
      | cons w2 rest =>
        rw [unlock, if_neg hneg, hmq, Option.some.injEq] at he
        subst he
        refine ⟨Or.inl ?_, ?_⟩
        · dsimp only [InvA]
          simp only [List.length_append, List.length_cons, List.length_nil]
          refine ⟨by omega, by trivial, by omega, hWW, hSW, heraseNil,
            Or.inr ⟨h5, ?_⟩⟩
          have h6l : s.schedHandoff.length = 0 := by rw [h6]; rfl
          omega
        · dsimp only [readerSum]
          simp only [List.length_append, List.length_cons, List.length_nil]
          omega
  | fireReader =>
    cases hsr : s.schedReaders with
    | nil =>
      simp only [exec, hsr] at he
      exact absurd he (by simp)
    | cons r rest =>
      simp only [exec, hsr, Option.some.injEq] at he
      subst he
      simp only [rlockInc] at hb ⊢
      simp only [readerSum] at hb
      have hSR : s.schedReaders.length = rest.length + 1 := by
        rw [hsr]
        rfl
      rcases hI with ⟨h1, h2, h3, h4, h5, h6, hm⟩ | ⟨h1, h2, h3, h4, h5, h6⟩
      · refine ⟨Or.inl ?_, ?_⟩
        · dsimp only [InvA]
          simp only [List.length_append, List.length_cons, List.length_nil]
          exact ⟨by omega, h2, h3, h4, h5, h6, hm⟩
        · dsimp only [readerSum]
          simp only [List.length_append, List.length_cons, List.length_nil]
          omega
      · refine ⟨Or.inr ?_, ?_⟩
        · dsimp only [InvB]
          simp only [List.length_append, List.length_cons, List.length_nil]
          refine ⟨by omega, by omega, h3, ?_, h5, h6⟩
          intro _
          exact h4 (by omega)
        · dsimp only [readerSum]
          simp only [List.length_append, List.length_cons, List.length_nil]
          omega
  | fireWriter =>
    cases hsw : s.schedWriters with
    | nil =>
      simp only [exec, hsw] at he
      exact absurd he (by simp)
    | cons w rest =>
      simp only [exec, hsw, Option.some.injEq] at he
      subst he
      simp only [rlockInc] at hb ⊢
      simp only [readerSum] at hb
      rcases hI with ⟨h1, h2, h3, h4, h5, h6, hm⟩ | ⟨h1, h2, h3, h4, h5, h6⟩
      · rw [h5] at hsw
        simp at hsw
      · have hARSR : s.activeReaders.length + s.schedReaders.length = 0 := by
          by_contra hc
          obtain ⟨h0, -⟩ := h4 hc
          rw [h0] at hsw
          simp at hsw
        have hSW : s.schedWriters.length = rest.length + 1 := by
          rw [hsw]
          rfl
        refine ⟨Or.inr ?_, ?_⟩
        · dsimp only [InvB]
          simp only [List.length_append, List.length_cons, List.length_nil]
          refine ⟨h1, h2, by omega, ?_, h5, h6⟩
          intro hcon
          exfalso
          omega
        · dsimp only [readerSum]
          omega
  | fireHandoff =>
    cases hsh : s.schedHandoff with
    | nil =>
      simp only [exec, hsh] at he
      exact absurd he (by simp)
    | cons w rest =>
      simp only [exec, hsh, Option.some.injEq] at he
      subst he
      simp only [rlockInc] at hb ⊢
      simp only [readerSum] at hb
      rcases hI with ⟨h1, h2, h3, h4, h5, h6, hm⟩ | ⟨h1, h2, h3, h4, h5, h6⟩
      · rcases hm with ⟨hml, hmq, hmh⟩ | ⟨hml, hmh⟩
        · rw [hmh] at hsh
          simp at hsh
        · have hrest : rest = [] := by
            rw [hsh] at hmh
            simpa using hmh
          subst hrest
          have hlb := lockBody_invB (s := { s with schedHandoff := [] })
            (w := w) h1 h2 h3 h4 h5 h6 hml rfl
          refine ⟨Or.inr hlb.1, ?_⟩
          rw [hlb.2]
          dsimp only [readerSum]
          omega
      · rw [h6] at hsh
        simp at hsh

/-- `rlockCount` of a cons decomposes through `rlockInc`. -/
theorem rlockCount_cons (e : Ev) (tr : List Ev) :
    rlockCount (e :: tr) = rlockInc e + rlockCount tr := by
  cases e <;> simp [rlockCount, rlockInc, Nat.add_comm]

/-- The invariant holds at the end of every enabled trace whose total
number of `rLock` calls stays below the bias constant. -/
theorem run_inv : ∀ (tr : List Ev) (s s2 : St), Inv s → run s tr = some s2 →
    (readerSum s : Int) + rlockCount tr < rwmutexMaxReaders → Inv s2 := by
  intro tr
  induction tr with
  | nil =>
    intro s s2 hI hr _
    simp only [run, Option.some.injEq] at hr
    subst hr
    exact hI
  | cons e tr ih =>
    intro s s2 hI hr hb
    rw [rlockCount_cons] at hb
    simp only [run] at hr
    cases hx : exec s e with
    | none =>
      rw [hx] at hr
      exact absurd hr (by simp)
    | some s1 =>
      rw [hx] at hr
      have hstep := exec_preserves hI (by push_cast at hb ⊢; omega) hx
      exact ih s1 s2 hstep.1 hr (by push_cast at hb ⊢; omega)

/-- The freshly constructed lock satisfies the invariant. -/
theorem inv_init : Inv init := by
  left
  refine ⟨by norm_num [init], rfl, rfl, rfl, rfl, rfl, Or.inl ⟨rfl, rfl, rfl⟩⟩

/-- C1: For every well-formed (balanced) sequence of
`rLock`/`rUnlock`/`lock`/`unlock` calls on the read-write lock (modelled
as a trace of call events interleaved with the firing of the
`setImmediate`-deferred wakeups those calls schedule, with fewer `rLock`
calls than the `1 << 30` bias constant the counter packs readers into), at
no reachable state does a writer hold the lock at the same time as another
writer or at the same time as any active reader. -/
theorem rwmutex_mutual_exclusion (tr : List Ev) (s : St)
    (hrun : run init tr = some s)
    (hN : (rlockCount tr : Int) < rwmutexMaxReaders) :
    s.activeWriters.length ≤ 1 ∧
    (s.activeWriters ≠ [] → s.activeReaders = []) := by
  have hI : Inv s := by
    apply run_inv tr init s inv_init hrun
    have h0 : readerSum init = 0 := rfl
    rw [h0]
    push_cast
    omega
  rcases hI with ⟨-, -, -, -, -, h6, -⟩ | ⟨-, -, h3, h4, -, -⟩
  · rw [h6]
    exact ⟨by simp, by simp⟩
  · constructor
    · omega
    · intro hne
      by_contra har
      have hlen : s.activeReaders.length ≠ 0 := by
        simpa [List.length_eq_zero] using har
      obtain ⟨-, h0⟩ := h4 (by omega)
      exact hne h0

/-- The trace of the C1 witness: two readers acquire, a writer claims and
queues, both readers release, the scheduled writer wakes and holds the
lock alone. -/
def trC1 : List Ev :=
  [.rlock 0, .rlock 1, .wlock 2, .runlock 0, .runlock 1, .fireWriter]

/-- The state the C1 witness trace ends in. -/
def stC1 : St := ⟨-1073741824, 0, [], [], true, [], [], [], [], [], [2]⟩

theorem rwmutex_mutual_exclusion_witness :
    run init trC1 = some stC1 ∧
    (stC1.activeWriters.length ≤ 1 ∧
      (stC1.activeWriters ≠ [] → stC1.activeReaders = [])) :=
  ⟨by decide, rwmutex_mutual_exclusion trC1 stC1 (by decide) (by decide)⟩

/-- C8: In every reachable state of the read-write lock, calling `rUnlock`
with no outstanding read acquisition (no active, waking or queued reader),
or `unlock` with no outstanding write claim, hits the thrown
`non-locked rwmutex` error (modelled as `none`) and is never silently
absorbed. -/
theorem rwmutex_misuse_throws (tr : List Ev) (s : St)
    (hrun : run init tr = some s)
    (hN : (rlockCount tr : Int) < rwmutexMaxReaders) :
    (s.activeReaders = [] ∧ s.schedReaders = [] ∧ s.readerWaiters = [] →
       ∀ r, rUnlock s r = none) ∧
    (s.activeWriters = [] ∧ s.schedWriters = [] ∧ s.writerWaiters = [] →
       ∀ w, unlock s w = none) := by
  have hI : Inv s := by
    apply run_inv tr init s inv_init hrun
    have h0 : readerSum init = 0 := rfl
    rw [h0]
    push_cast
    omega
  constructor
  · rintro ⟨ha, hsr, hq⟩ r
    have hal : s.activeReaders.length = 0 := by rw [ha]; rfl
    have hsl : s.schedReaders.length = 0 := by rw [hsr]; rfl
    have hql : s.readerWaiters.length = 0 := by rw [hq]; rfl
    rcases hI with ⟨h1, -, -, -, -, -, -⟩ | ⟨h1, -, -, -, -, -⟩
    · rw [rUnlock, if_pos (Or.inl (by omega))]
    · rw [rUnlock, if_pos (Or.inr (by omega))]
  · rintro ⟨ha, hsw, hww⟩ w
    have hal : s.activeWriters.length = 0 := by rw [ha]; rfl
    have hsl : s.schedWriters.length = 0 := by rw [hsw]; rfl
    have hwl : s.writerWaiters.length = 0 := by rw [hww]; rfl
    rcases hI with ⟨h1, -, -, -, -, -, -⟩ | ⟨h1, -, h3, -, -, -⟩
    · rw [unlock, if_pos (by omega)]
    · omega

theorem rwmutex_misuse_throws_witness :
    rUnlock init 5 = none ∧ unlock init 5 = none :=
  ⟨(rwmutex_misuse_throws [] init rfl (by decide)).1 ⟨rfl, rfl, rfl⟩ 5,
   (rwmutex_misuse_throws [] init rfl (by decide)).2 ⟨rfl, rfl, rfl⟩ 5⟩

end RW

namespace Coalesce

/-- Settled outcome of a promise: fulfilled with a value or rejected with
an error. -/
inductive Outcome (ε α : Type)
  | success (v : α)
  | failure (e : ε)
deriving DecidableEq

/-- Shallow embedding of `finallyPromise(promise, onFinally)` at the level
of settled outcomes: after `onFinally` runs, the fulfillment branch
returns the original value and the rejection branch rethrows the original
error, so the composite promise settles with the original outcome. -/
def finallyOutcome {ε α : Type} : Outcome ε α → Outcome ε α
  | .success v => .success v
  | .failure e => .failure e

/-- Lookup in the `wrap` cache, a map keyed by the call's first argument
(`cache.has` / `cache.get`). -/
def cacheGet {β : Type} (k : String) : List (String × β) → Option β
  | [] => none
  | (k1, v) :: rest => if k1 = k then some v else cacheGet k rest

/-- `cache.delete(key)`: remove the entry for a key (keys are unique in a
map, so removing the first occurrence removes the entry). -/
def cacheDelete {β : Type} (k : String) : List (String × β) → List (String × β)
  | [] => []
  | (k1, v) :: rest => if k1 = k then rest else (k1, v) :: cacheDelete k rest

/-- State of the coalescer produced by `wrap`: the cache mapping each
pending key to the identity of its in-flight promise, a supply of fresh
promise identities, and the log of provider invocations (`fn.call`) in
order. -/
structure CoSt where
  pending : List (String × Nat)
  nextId : Nat
  invoked : List String
deriving DecidableEq

/-- The coalescer starts with an empty cache (`new Map()`). -/
def coInit : CoSt := ⟨[], 0, []⟩

/-- What a caller of the wrapped operation receives: on a cache hit, the
raw cached promise (`cache.get(key)`); on a miss, the
`finallyPromise`-wrapped fresh promise whose settlement also deletes the
cache entry. -/
inductive View
  | attached (pid : Nat)
  | created (pid : Nat)
deriving DecidableEq

/-- One call of the function returned by `wrap`, with `k` the first
argument (the coalescing key): on a hit return the cached promise without
invoking the provider; on a miss invoke the provider, cache the promise,
and return its `finallyPromise` wrapper. -/
def callOp (s : CoSt) (k : String) : CoSt × View :=
  match cacheGet k s.pending with
  | some pid => (s, .attached pid)
  | none =>
      ({ pending := (k, s.nextId) :: s.pending,
         nextId := s.nextId + 1,
         invoked := s.invoked ++ [k] }, .created s.nextId)

/-- Settlement of the in-flight call for key `k`: the registered
`onFinally` runs `cache.delete(key)`. -/
def settle (s : CoSt) (k : String) : CoSt :=
  { s with pending := cacheDelete k s.pending }

/-- `n` further calls with the same key, collecting what each caller
receives. -/
def callsN (s : CoSt) (k : String) : Nat → CoSt × List View
  | 0 => (s, [])
  | n + 1 =>
      let c := callOp s k
      let c2 := callsN c.1 k n
      (c2.1, c.2 :: c2.2)

/-- Events observable at the coalescer boundary: a call of the wrapped
operation and the settlement of a pending call. -/
inductive CEv
  | call (k : String)
  | settleEv (k : String)
deriving DecidableEq

/-- Effect of one event on the coalescer state. -/
def cexec (s : CoSt) : CEv → CoSt
  | .call k => (callOp s k).1
  | .settleEv k => settle s k

/-- Run a sequence of coalescer events. -/
def crun (s : CoSt) : List CEv → CoSt
  | [] => s
  | e :: tr => crun (cexec s e) tr

/-- While `(k, pid)` is in the cache, a call with key `k` is a pure cache
hit: the state is unchanged and the caller attaches to `pid`. -/
theorem callOp_hit {s : CoSt} {k : String} {pid : Nat}
    (h : cacheGet k s.pending = some pid) :
    callOp s k = (s, .attached pid) := by
  rw [callOp, h]

/-- Iterated cache hits: state unchanged, everyone attaches to `pid`. -/
theorem callsN_hit {s : CoSt} {k : String} {pid : Nat}
    (h : cacheGet k s.pending = some pid) :
    ∀ n, callsN s k n = (s, List.replicate n (.attached pid)) := by
  intro n
  induction n with
  | zero => rfl
  | succ n ih =>
    rw [callsN, callOp_hit h]
    simp [ih, List.replicate_succ]

/-- After a fresh call for `k`, the cache maps `k` to the new promise. -/
theorem cacheGet_after_miss {s : CoSt} {k : String}
    (h : cacheGet k s.pending = none) :
    cacheGet k ((callOp s k).1).pending = some s.nextId := by
  rw [callOp, h]
  simp [cacheGet]

/-- C2: If no call for key `k` is pending, the first call invokes the
provider exactly once and caches the promise; every one of the `n`
further calls issued while that call is pending attaches to the very same
promise without a further provider invocation, and once the promise
settles with outcome `o`, the creating caller (through the
`finallyPromise` wrapper) and all attached callers observe the identical
outcome `o`. -/
theorem wrap_coalesces {ε α : Type} (s : CoSt) (k : String) (n : Nat)
    (o : Outcome ε α) (h : cacheGet k s.pending = none) :
    (callOp s k).2 = .created s.nextId ∧
    ((callOp s k).1).invoked = s.invoked ++ [k] ∧
    (callsN (callOp s k).1 k n).1 = (callOp s k).1 ∧
    (callsN (callOp s k).1 k n).2 = List.replicate n (.attached s.nextId) ∧
    finallyOutcome o = o := by
  have hhit := cacheGet_after_miss h
  refine ⟨?_, ?_, ?_, ?_, ?_⟩
  · rw [callOp, h]
  · rw [callOp, h]
  · rw [callsN_hit hhit]
  · rw [callsN_hit hhit]
  · cases o <;> rfl

/-- The C2 witness scenario: one creating call and two attached calls on
key `/a` from the empty coalescer, settling successfully with value 7. -/
theorem wrap_coalesces_witness :
    (callOp coInit "/a").2 = .created coInit.nextId ∧
    ((callOp coInit "/a").1).invoked = coInit.invoked ++ ["/a"] ∧
    (callsN (callOp coInit "/a").1 "/a" 2).1 = (callOp coInit "/a").1 ∧
    (callsN (callOp coInit "/a").1 "/a" 2).2 =
      List.replicate 2 (.attached coInit.nextId) ∧
    finallyOutcome (Outcome.success (ε := String) (7 : Nat)) =
      Outcome.success 7 :=
  wrap_coalesces coInit "/a" 2 (Outcome.success 7) rfl

/-- Keys of a cache. -/
def cacheKeys {β : Type} (l : List (String × β)) : List String :=
  l.map Prod.fst

/-- `cacheGet` misses exactly the keys that are absent. -/
theorem cacheGet_eq_none_of_not_mem {β : Type} {k : String}
    {l : List (String × β)} (h : k ∉ cacheKeys l) : cacheGet k l = none := by
  induction l with
  | nil => rfl
  | cons kv rest ih =>
    simp only [cacheKeys, List.map_cons, List.mem_cons] at h
    push_neg at h
    rw [cacheGet, if_neg (fun he => h.1 he.symm)]
    exact ih h.2

/-- A key whose lookup misses is absent from the keys. -/
theorem not_mem_keys_of_cacheGet_none {β : Type} {k : String}
    {l : List (String × β)} (hc : cacheGet k l = none) : k ∉ cacheKeys l := by
  induction l with
  | nil => simp [cacheKeys]
  | cons kv rest ih =>
    obtain ⟨k1, v⟩ := kv
    rw [cacheGet] at hc
    by_cases he : k1 = k
    · rw [if_pos he] at hc
      exact Option.noConfusion hc
    · rw [if_neg he] at hc
      simp only [cacheKeys, List.map_cons, List.mem_cons]
      push_neg
      exact ⟨fun h => he h.symm, ih hc⟩

/-- Deleting a key removes it from the keys (when keys are unique). -/
theorem cacheGet_delete_self {β : Type} {k : String} {l : List (String × β)}
    (hnd : (cacheKeys l).Nodup) : cacheGet k (cacheDelete k l) = none := by
  induction l with
  | nil => rfl
  | cons kv rest ih =>
    simp only [cacheKeys, List.map_cons, List.nodup_cons] at hnd
    by_cases he : kv.1 = k
    · rw [show (kv :: rest : List (String × β)) = (kv.1, kv.2) :: rest by rfl,
        cacheDelete, if_pos he]
      apply cacheGet_eq_none_of_not_mem
      rw [← he]
      exact hnd.1
    · rw [show (kv :: rest : List (String × β)) = (kv.1, kv.2) :: rest by rfl,
        cacheDelete, if_neg he, cacheGet, if_neg he]
      exact ih hnd.2

/-- Deleting one key leaves the entries of every other key alone. -/
theorem cacheGet_delete_other {β : Type} {k k2 : String}
    {l : List (String × β)} (hne : k2 ≠ k) :
    cacheGet k2 (cacheDelete k l) = cacheGet k2 l := by
  induction l with
  | nil => rfl
  | cons kv rest ih =>
    obtain ⟨k1, v⟩ := kv
    by_cases he : k1 = k
    · have hk2 : ¬ k1 = k2 := fun h2 => hne (h2 ▸ he)
      rw [cacheDelete, if_pos he, cacheGet, if_neg hk2]
    · rw [cacheDelete, if_neg he]
      by_cases h2 : k1 = k2
      · rw [cacheGet, if_pos h2, cacheGet, if_pos h2]
      · rw [cacheGet, if_neg h2, cacheGet, if_neg h2, ih]

/-- Keys of the delete are a sublist of the original keys. -/
theorem cacheKeys_delete_sublist {β : Type} (k : String)
    (l : List (String × β)) :
    (cacheKeys (cacheDelete k l)).Sublist (cacheKeys l) := by
  induction l with
  | nil => exact List.Sublist.refl _
  | cons kv rest ih =>
    by_cases he : kv.1 = k
    · rw [show (kv :: rest : List (String × β)) = (kv.1, kv.2) :: rest by rfl,
        cacheDelete, if_pos he]
      exact List.sublist_cons_self _ _
    · rw [show (kv :: rest : List (String × β)) = (kv.1, kv.2) :: rest by rfl,
        cacheDelete, if_neg he]
      exact List.Sublist.cons₂ _ ih

/-- Every reachable coalescer state has unique pending keys. -/
theorem crun_nodup : ∀ (tr : List CEv) (s : CoSt),
    (cacheKeys s.pending).Nodup → (cacheKeys (crun s tr).pending).Nodup := by
  intro tr
  induction tr with
  | nil => intro s h; exact h
  | cons e tr ih =>
    intro s h
    rw [crun]
    apply ih
    cases e with
    | call k =>
      cases hc : cacheGet k s.pending with
      | some pid => simp [cexec, callOp, hc, h]
      | none =>
        have hnm : k ∉ cacheKeys s.pending :=
          not_mem_keys_of_cacheGet_none hc
        simp only [cexec, callOp, hc]
        simp only [cacheKeys, List.map_cons] at hnm ⊢
        exact List.nodup_cons.mpr ⟨hnm, h⟩
    | settleEv k =>
      exact List.Nodup.sublist (cacheKeys_delete_sublist k s.pending) h

/-- C3: In any reachable coalescer state in which key `k` is pending with
promise `pid`: further calls (no matter how many callers attach) leave the
pending table unchanged, settlement of the call deletes exactly the entry
for `k` — other keys are untouched — and the first call for `k` issued
after the settlement misses the cache, so it invokes the provider afresh
on a fresh promise. -/
theorem wrap_fresh_after_settle (tr : List CEv) (s : CoSt) (k : String)
    (pid : Nat) (hs : s = crun coInit tr)
    (hp : cacheGet k s.pending = some pid) :
    (∀ n, (callsN s k n).1 = s) ∧
    cacheGet k (settle s k).pending = none ∧
    (∀ k2, k2 ≠ k →
       cacheGet k2 (settle s k).pending = cacheGet k2 s.pending) ∧
    (callOp (settle s k) k).2 = .created (settle s k).nextId ∧
    ((callOp (settle s k) k)).1.invoked = (settle s k).invoked ++ [k] := by
  have hnd : (cacheKeys s.pending).Nodup := by
    rw [hs]
    exact crun_nodup tr coInit List.nodup_nil
  have hdel : cacheGet k (settle s k).pending = none :=
    cacheGet_delete_self hnd
  refine ⟨?_, hdel, ?_, ?_, ?_⟩
  · intro n
    rw [callsN_hit hp]
  · intro k2 hne
    exact cacheGet_delete_other hne
  · rw [callOp, hdel]
  · rw [callOp, hdel]

/-- The C3 witness scenario: the pending call for key `/a` created from
the empty coalescer settles; afterwards the cache no longer holds `/a`
and a new call re-invokes the provider. -/
theorem wrap_fresh_after_settle_witness :
    (∀ n, (callsN (crun coInit [CEv.call "/a"]) "/a" n).1 =
       crun coInit [CEv.call "/a"]) ∧
    cacheGet "/a" (settle (crun coInit [CEv.call "/a"]) "/a").pending =
      none ∧
    (∀ k2, k2 ≠ "/a" →
       cacheGet k2 (settle (crun coInit [CEv.call "/a"]) "/a").pending =
         cacheGet k2 (crun coInit [CEv.call "/a"]).pending) ∧
    (callOp (settle (crun coInit [CEv.call "/a"]) "/a") "/a").2 =
      .created (settle (crun coInit [CEv.call "/a"]) "/a").nextId ∧
    ((callOp (settle (crun coInit [CEv.call "/a"]) "/a") "/a")).1.invoked =
      (settle (crun coInit [CEv.call "/a"]) "/a").invoked ++ ["/a"] :=
  wrap_fresh_after_settle [CEv.call "/a"] (crun coInit [CEv.call "/a"])
    "/a" 0 rfl rfl

end Coalesce

namespace DynFS

/-- File-type tag of a directory entry (`FileType` in node_fs_stats). -/
inductive FileType
  | FILE
  | DIRECTORY
deriving DecidableEq

/-- The Stats record a FileInode owns: byte size (`-1` = unknown), the
file-type tag, permission bits, and the optionally cached content buffer
(`fileData`, initially absent). -/
structure FStats where
  ftype : FileType
  size : Int
  mode : Nat
  fileData : Option (List Nat)
deriving DecidableEq

/-- An index node: a FileInode owning a Stats record, or a DirInode owning
its `entriesLoaded` mark and its listing of child names; both carry the
opaque extend-data payload supplied by the listing provider. -/
inductive Inode (T : Type)
  | file (data : FStats) (extendData : Option T)
  | dir (entriesLoaded : Bool) (listing : List String) (extendData : Option T)
deriving DecidableEq

/-- The path index: a mapping from absolute path to Inode. -/
abbrev Index (T : Type) := List (String × Inode T)

/-- Modelled from the spec: `FileIndex.getInode`, lookup by exact path in
the one-directional path-to-Inode mapping. -/
def getInode {T : Type} : Index T → String → Option (Inode T)
  | [], _ => none
  | (q, nd) :: rest, p => if q = p then some nd else getInode rest p

/-- Update the mapping at one path, keeping every other path's entry. -/
def setInode {T : Type} : Index T → String → Inode T → Index T
  | [], p, nd => [(p, nd)]
  | (q, nd0) :: rest, p, nd =>
      if q = p then (p, nd) :: rest else (q, nd0) :: setInode rest p nd

/-- Model of `path.join(p, seg)` for the arguments `loadEntry` produces:
`p` is `''` or an absolute path and `seg` is a single segment. -/
def joinPath (p seg : String) : String :=
  if seg = "" then (if p = "" then "." else p)
  else if p = "" then seg
  else if p = "/" then "/" ++ seg
  else p ++ "/" ++ seg

/-- Model of JavaScript `path.split('/')`: split the character list at
every slash, keeping empty groups. -/
def splitOnChar (c : Char) : List Char → List (List Char)
  | [] => [[]]
  | x :: xs =>
      if x = c then [] :: splitOnChar c xs
      else match splitOnChar c xs with
        | [] => [[x]]
        | g :: gs => (x :: g) :: gs

/-- The `pathList` of `loadEntry`:
`['/'].concat(path.split('/').filter(Boolean))`. -/
def pathSegs (path : String) : List String :=
  ["/"] ++ ((splitOnChar '/' path.data).map String.mk).filter (fun s => s ≠ "")

/-- The segments `loadEntry` walks: `pathList.slice(0, -1)` when
`loadBase` is false (ancestors only), the whole list when true. -/
def loadSegs (path : String) (loadBase : Bool) : List String :=
  if loadBase then pathSegs path else (pathSegs path).dropLast

/-- One entry returned by the listing provider:
`[name, fileType, extendData?]`. -/
structure FileEntry (T : Type) where
  name : String
  ftype : FileType
  extendData : Option T
deriving DecidableEq

/-- The (coalesced) directory-listing provider `_readDirectory` as a pure
oracle: result determined by path and extend-data; `Except.error` is a
rejected promise. -/
abbrev RdProvider (T : Type) := String → Option T → Except String (List (FileEntry T))

/-- The optional `_stat` provider: returns the file size. -/
abbrev StatProvider (T : Type) := String → Option T → Except String Int

/-- The `_readFile` provider: returns the content bytes. -/
abbrev RfProvider (T : Type) := String → Option T → Except String (List Nat)

/-- Construction of the inode for one listing entry: directories become
fresh unloaded DirInodes, anything else a FileInode with unknown size and
permission bits `0x16D` (555), with the entry's extend-data attached. -/
def mkNode {T : Type} (e : FileEntry T) : Inode T :=
  match e.ftype with
  | .DIRECTORY => .dir false [] e.extendData
  | .FILE => .file ⟨.FILE, -1, 0x16D, none⟩ e.extendData

/-- Modelled from the spec: `FileIndex.addPathFast` inserts the inode at
the joined path and registers the child name in the parent directory's
listing. -/
def addChild {T : Type} (idx : Index T) (p name : String) (nd : Inode T) :
    Index T :=
  let idx2 := setInode idx (joinPath p name) nd
  match getInode idx2 p with
  | some (.dir el cs ed) =>
      setInode idx2 p (.dir el (if name ∈ cs then cs else cs ++ [name]) ed)
  | _ => idx2

/-- The `forEach` body of `loadEntry`'s fulfillment handler: construct and
insert an inode for every returned entry. -/
def insertEntries {T : Type} (idx : Index T) (p : String)
    (entries : List (FileEntry T)) : Index T :=
  entries.foldl (fun acc e => addChild acc p e.name (mkNode e)) idx

/-- `inode.entriesLoaded = true`: mark the directory at `p` as loaded. -/
def markLoaded {T : Type} (idx : Index T) (p : String) : Index T :=
  match getInode idx p with
  | some (.dir _ cs ed) => setInode idx p (.dir true cs ed)
  | _ => idx

/-- The `next` loop of `loadEntry`.  Arguments: remaining segments, index,
accumulated path `p`, log of listing-provider invocations so far.  Returns
the final index, the invocation log, and the promise outcome (`.ok ()` for
`resolve()`, `.error e` for `reject(e)`).  A segment whose accumulated
path is absent or not a directory resolves at once; a loaded directory is
skipped; an unloaded directory is fetched, its entries inserted, the
directory marked, and the walk advances — strictly one segment after the
previous one settles. -/
def loadGo {T : Type} (rd : RdProvider T) :
    List String → Index T → String → List String →
    Index T × List String × Except String Unit
  | [], idx, _, log => (idx, log, .ok ())
  | seg :: rest, idx, p, log =>
      match getInode idx (joinPath p seg) with
      | some (.dir el _ ed) =>
          if el then loadGo rd rest idx (joinPath p seg) log
          else
            match rd (joinPath p seg) ed with
            | .error e => (idx, log ++ [joinPath p seg], .error e)
            | .ok entries =>
                loadGo rd rest
                  (markLoaded (insertEntries idx (joinPath p seg) entries)
                    (joinPath p seg))
                  (joinPath p seg) (log ++ [joinPath p seg])
      | _ => (idx, log, .ok ())

/-- `loadEntry(path, loadBase)` of the DynamicRequest backend. -/
def loadEntry {T : Type} (rd : RdProvider T) (idx : Index T) (path : String)
    (loadBase : Bool) : Index T × List String × Except String Unit :=
  loadGo rd (loadSegs path loadBase) idx "" []

/-- The ApiError kinds the DynamicRequest backend produces. -/
inductive FsError
  | ENOENT (p : String)
  | EPERM (p : String)
  | EEXIST (p : String)
  | EISDIR (p : String)
  | ENOTDIR (p : String)
  | EINVAL (msg : String)
deriving DecidableEq

/-- Modelled from the spec: the `ActionType` a FileFlag maps an existing
path to (`pathExistsAction`). -/
inductive ActionType
  | NOP
  | THROW_EXCEPTION
  | TRUNCATE_FILE
  | CREATE_FILE
deriving DecidableEq

/-- Modelled from the spec: a FileFlag, reduced to the two capabilities
`open` consults — whether the flags request write access
(`isWriteable()`) and what to do when the path exists
(`pathExistsAction()`). -/
structure FileFlag where
  isWriteable : Bool
  pathExistsAction : ActionType
deriving DecidableEq

/-- Modelled from the spec: the Stats record `DirInode.getStats()`
returns for a directory; its contents are not inspected by the claims. -/
def dirStats : FStats := ⟨.DIRECTORY, 4096, 0x16D, none⟩

/-- The raw `stat` of the backend (before prototype wrapping): look the
path up; absent is not-found; a file with unknown size consults the
configured stat provider (if any) and caches the size on the inode's
Stats; a directory answers its stats immediately.  Returns the callback
outcome together with the index (which the size-caching mutates). -/
def statRaw {T : Type} (statP : Option (StatProvider T)) (idx : Index T)
    (p : String) : Except FsError FStats × Index T :=
  match getInode idx p with
  | none => (.error (.ENOENT p), idx)
  | some (.file st ed) =>
      match statP with
      | some f =>
          if st.size < 0 then
            match f p ed with
            | .ok sz =>
                (.ok { st with size := sz },
                 setInode idx p (.file { st with size := sz } ed))
            | .error e => (.error (.EINVAL e), idx)
          else (.ok st, idx)
      | none => (.ok st, idx)
  | some (.dir _ _ _) => (.ok dirStats, idx)

/-- The Stats update `open` performs after fetching content:
`stats.size = buf.length; stats.fileData = buf`. -/
def fetched (st : FStats) (content : List Nat) : FStats :=
  { st with size := (content.length : Int), fileData := some content }

/-- The raw `open` of the backend (before prototype wrapping): reject
write-intent flags with permission-denied before anything else; absent is
not-found; a directory is is-a-directory; an existing file with
exclusive/truncate flags is already-exists; otherwise a cached buffer is
returned at once and an uncached one is fetched through the read provider,
cached on the inode's Stats together with its length, any provider
failure wrapped to invalid-argument.  Returns the callback outcome (the
handle's Stats snapshot and buffer) together with the index. -/
def openRaw {T : Type} (rfP : RfProvider T) (idx : Index T) (p : String)
    (flags : FileFlag) : Except FsError (FStats × List Nat) × Index T :=
  if flags.isWriteable then (.error (.EPERM p), idx)
  else
    match getInode idx p with
    | none => (.error (.ENOENT p), idx)
    | some (.file st ed) =>
        match flags.pathExistsAction with
        | .THROW_EXCEPTION => (.error (.EEXIST p), idx)
        | .TRUNCATE_FILE => (.error (.EEXIST p), idx)
        | .NOP =>
            match st.fileData with
            | some buf => (.ok (st, buf), idx)
            | none =>
                match rfP p ed with
                | .ok content =>
                    (.ok (fetched st content, content),
                     setInode idx p (.file (fetched st content) ed))
                | .error e => (.error (.EINVAL e), idx)
        | .CREATE_FILE => (.error (.EINVAL "Invalid FileMode object."), idx)
    | some (.dir _ _ _) => (.error (.EISDIR p), idx)

/-- The raw `readdir` of the backend (before prototype wrapping): absent
is not-found, a non-directory is not-a-directory, a loaded directory
answers its listing, an unloaded one is the internal-invariant
invalid-argument. -/
def readdirRaw {T : Type} (idx : Index T) (p : String) :
    Except FsError (List String) :=
  match getInode idx p with
  | none => .error (.ENOENT p)
  | some (.dir el cs _) =>
      if el then .ok cs else .error (.EINVAL "Failed to readdir")
  | some (.file _ _) => .error (.ENOTDIR p)

/-- Shallow embedding of the prototype wrapping
`finallyPromise(this.loadEntry(path, ...), () => rawFn.call(this, ...))`:
`onFinally` (which runs the raw operation, firing the user callback) runs
both when the load promise fulfills and when it rejects; the composite
promise then settles with the load's own outcome, which nothing
observes. -/
def finallyRun {beta : Type} (load : Except String Unit)
    (onFinally : Unit → beta) : beta × Except String Unit :=
  match load with
  | .ok v => (onFinally (), .ok v)
  | .error e => (onFinally (), .error e)

/-- The public (wrapped) `stat`: pre-load the ancestors (`loadBase`
false), then run the raw `stat` against the resulting index.  Returns the
delivered callback outcome and index, the listing-provider invocation log,
and the unobserved composite promise outcome. -/
def wrappedStat {T : Type} (rd : RdProvider T) (statP : Option (StatProvider T))
    (idx : Index T) (p : String) :
    (Except FsError FStats × Index T) × List String × Except String Unit :=
  let l := loadEntry rd idx p false
  let r := finallyRun l.2.2 (fun _ => statRaw statP l.1 p)
  (r.1, l.2.1, r.2)

/-- The public (wrapped) `open`: pre-load the ancestors, then run the raw
`open` against the resulting index. -/
def wrappedOpen {T : Type} (rd : RdProvider T) (rfP : RfProvider T)
    (idx : Index T) (p : String) (flags : FileFlag) :
    (Except FsError (FStats × List Nat) × Index T) × List String ×
      Except String Unit :=
  let l := loadEntry rd idx p false
  let r := finallyRun l.2.2 (fun _ => openRaw rfP l.1 p flags)
  (r.1, l.2.1, r.2)

/-- The public (wrapped) `readdir`: pre-load including the target's own
listing (`loadBase` true), then run the raw `readdir`. -/
def wrappedReaddir {T : Type} (rd : RdProvider T) (idx : Index T)
    (p : String) :
    Except FsError (List String) × List String × Except String Unit :=
  let l := loadEntry rd idx p true
  let r := finallyRun l.2.2 (fun _ => readdirRaw l.1 p)
  (r.1, l.2.1, r.2)

/-- Lookup after updating the same path. -/
theorem getInode_set_self {T : Type} :
    ∀ (idx : Index T) (p : String) (nd : Inode T),
      getInode (setInode idx p nd) p = some nd := by
  intro idx
  induction idx with
  | nil => intro p nd; simp [setInode, getInode]
  | cons kv rest ih =>
    intro p nd
    obtain ⟨k1, v⟩ := kv
    rw [setInode]
    by_cases he : k1 = p
    · rw [if_pos he, getInode, if_pos rfl]
    · rw [if_neg he, getInode, if_neg he, ih]

/-- Lookup after updating a different path. -/
theorem getInode_set_other {T : Type} {q p : String} (h : q ≠ p) :
    ∀ (idx : Index T) (nd : Inode T),
      getInode (setInode idx q nd) p = getInode idx p := by
  intro idx
  induction idx with
  | nil =>
    intro nd
    simp [setInode, getInode, h]
  | cons kv rest ih =>
    intro nd
    obtain ⟨k1, v⟩ := kv
    rw [setInode]
    by_cases he : k1 = q
    · subst he
      rw [if_pos rfl]
      simp only [getInode]
      rw [if_neg h, if_neg h]
    · rw [if_neg he]
      simp only [getInode]
      by_cases hp : k1 = p
      · rw [if_pos hp, if_pos hp]
      · rw [if_neg hp, if_neg hp, ih]

/-- Boolean prefix test on character lists. -/
def listPref : List Char → List Char → Bool
  | [], _ => true
  | _ :: _, [] => false
  | a :: as, b :: bs => a == b && listPref as bs

/-- `a` strictly precedes `b` in the path tree: a proper string prefix. -/
def strictPref (a b : String) : Prop :=
  listPref a.data b.data = true ∧ a.data.length < b.data.length

instance : DecidableRel strictPref := fun a b => by
  rw [strictPref]
  infer_instance

theorem listPref_append (as bs : List Char) : listPref as (as ++ bs) = true := by
  induction as with
  | nil => rfl
  | cons a as ih => simp [listPref, ih]

theorem listPref_trans {as bs cs : List Char} (h1 : listPref as bs = true)
    (h2 : listPref bs cs = true) : listPref as cs = true := by
  induction as generalizing bs cs with
  | nil => rfl
  | cons a as ih =>
    cases bs with
    | nil => simp [listPref] at h1
    | cons b bs2 =>
      cases cs with
      | nil => simp [listPref] at h2
      | cons c cs2 =>
        simp only [listPref, Bool.and_eq_true, beq_iff_eq] at h1 h2 ⊢
        exact ⟨h1.1.trans h2.1, ih h1.2 h2.2⟩

theorem strictPref_trans {a b c : String} (h1 : strictPref a b)
    (h2 : strictPref b c) : strictPref a c :=
  ⟨listPref_trans h1.1 h2.1, h1.2.trans h2.2⟩

/-- A nonempty string has a nonempty character list. -/
theorem data_ne_nil_of_ne_empty {s : String} (h : s ≠ "") : s.data ≠ [] :=
  fun hd => h (String.ext hd)

/-- Joining a nonempty segment extends the path properly. -/
theorem strictPref_joinPath (p : String) {seg : String} (hs : seg ≠ "") :
    strictPref p (joinPath p seg) := by
  have hd : seg.data ≠ [] := data_ne_nil_of_ne_empty hs
  have hdl : 0 < seg.data.length := List.length_pos.mpr hd
  rw [joinPath, if_neg hs]
  by_cases hp : p = ""
  · rw [if_pos hp]
    subst hp
    exact ⟨rfl, by simpa using hdl⟩
  · rw [if_neg hp]
    by_cases hr : p = "/"
    · rw [if_pos hr]
      subst hr
      refine ⟨?_, ?_⟩
      · rw [String.data_append]
        exact listPref_append _ _
      · rw [String.data_append, List.length_append]
        omega
    · rw [if_neg hr]
      refine ⟨?_, ?_⟩
      · rw [String.data_append, String.data_append, List.append_assoc]
        exact listPref_append _ _
      · rw [String.data_append, String.data_append, List.length_append,
          List.length_append]
        have : 0 < ("/" : String).data.length := by decide
        omega

/-- Joining never shortens the path. -/
theorem joinPath_len_ge (p seg : String) :
    p.data.length ≤ (joinPath p seg).data.length := by
  by_cases hs : seg = ""
  · rw [joinPath, if_pos hs]
    by_cases hp : p = ""
    · rw [if_pos hp, hp]
      decide
    · rw [if_neg hp]
  · exact le_of_lt (strictPref_joinPath p hs).2

/-- Two paths of different lengths differ. -/
theorem ne_of_len_lt {a b : String} (h : a.data.length < b.data.length) :
    a ≠ b := by
  intro he
  rw [he] at h
  omega

/-- All walked segments are nonempty. -/
theorem loadSegs_ne_empty (path : String) (lb : Bool) :
    ∀ s ∈ loadSegs path lb, s ≠ "" := by
  intro s hs
  rw [loadSegs] at hs
  have hmem : s ∈ pathSegs path := by
    by_cases h : lb = true
    · rw [if_pos h] at hs
      exact hs
    · rw [if_neg h] at hs
      exact (List.dropLast_sublist _).subset hs
  rw [pathSegs] at hmem
  rcases List.mem_append.mp hmem with h | h
  · simp only [List.mem_singleton] at h
    subst h
    decide
  · have := (List.mem_filter.mp h).2
    simpa using this

/-- The accumulated paths the walk visits, one per segment. -/
def accPaths : String → List String → List String
  | _, [] => []
  | p, seg :: rest => joinPath p seg :: accPaths (joinPath p seg) rest

theorem accPaths_length (p : String) (segs : List String) :
    (accPaths p segs).length = segs.length := by
  induction segs generalizing p with
  | nil => rfl
  | cons seg rest ih => simp [accPaths, ih]

/-- `isDirInode` of the source: does a lookup result hold a DirInode? -/
def isDirInode {T : Type} : Option (Inode T) → Bool
  | some (.dir _ _ _) => true
  | _ => false

/-- A lookup result holding a directory with `entriesLoaded = true`. -/
def isLoadedDir {T : Type} : Option (Inode T) → Bool
  | some (.dir true _ _) => true
  | _ => false

/-- A listing provider whose entry names are genuine path components
(nonempty), as the provider contract supplies. -/
def NamesOk {T : Type} (rd : RdProvider T) : Prop :=
  ∀ p ed es, rd p ed = .ok es → ∀ e ∈ es, e.name ≠ ""

/-- `addPathFast` under `p` never disturbs strictly shorter paths. -/
theorem addChild_preserves {T : Type} {p q : String}
    (hq : q.data.length < p.data.length) (idx : Index T) (name : String)
    (nd : Inode T) :
    getInode (addChild idx p name nd) q = getInode idx q := by
  have hk : joinPath p name ≠ q :=
    Ne.symm (ne_of_len_lt (lt_of_lt_of_le hq (joinPath_len_ge p name)))
  have hp : p ≠ q := Ne.symm (ne_of_len_lt hq)
  simp only [addChild]
  cases hm : getInode (setInode idx (joinPath p name) nd) p with
  | none => exact getInode_set_other hk idx nd
  | some nd2 =>
    cases nd2 with
    | file st ed => exact getInode_set_other hk idx nd
    | dir el cs ed =>
      rw [getInode_set_other hp, getInode_set_other hk]

/-- Inserting a listing under `p` never disturbs strictly shorter paths. -/
theorem insertEntries_preserves {T : Type} {p q : String}
    (hq : q.data.length < p.data.length) :
    ∀ (es : List (FileEntry T)) (idx : Index T),
      getInode (insertEntries idx p es) q = getInode idx q := by
  intro es
  induction es with
  | nil => intro idx; rfl
  | cons e rest ih =>
    intro idx
    exact (ih _).trans (addChild_preserves hq idx e.name (mkNode e))

/-- Marking `p` loaded never disturbs other paths. -/
theorem markLoaded_preserves {T : Type} {q p : String} (h : q ≠ p)
    (idx : Index T) : getInode (markLoaded idx p) q = getInode idx q := by
  simp only [markLoaded]
  cases hm : getInode idx p with
  | none => rfl
  | some nd =>
    cases nd with
    | file st ed => rfl
    | dir el cs ed => exact getInode_set_other (Ne.symm h) idx _

/-- Inserting one child with a genuine (nonempty) name keeps the parent a
directory with the same mark and extend-data. -/
theorem addChild_keeps_dir {T : Type} {p name : String} (hname : name ≠ "")
    {idx : Index T} {el : Bool} {cs : List String} {ed : Option T}
    (h : getInode idx p = some (.dir el cs ed)) (nd : Inode T) :
    ∃ cs2, getInode (addChild idx p name nd) p = some (.dir el cs2 ed) := by
  have hk : joinPath p name ≠ p :=
    Ne.symm (ne_of_len_lt (strictPref_joinPath p hname).2)
  have h2 : getInode (setInode idx (joinPath p name) nd) p =
      some (.dir el cs ed) := by
    rw [getInode_set_other hk]
    exact h
  simp only [addChild, h2]
  exact ⟨_, getInode_set_self _ _ _⟩

/-- Inserting a listing of genuinely named entries keeps the parent a
directory with the same mark and extend-data. -/
theorem insertEntries_keeps_dir {T : Type} {p : String} :
    ∀ (es : List (FileEntry T)), (∀ e ∈ es, e.name ≠ "") →
      ∀ (idx : Index T) (el : Bool) (cs : List String) (ed : Option T),
      getInode idx p = some (.dir el cs ed) →
      ∃ cs2, getInode (insertEntries idx p es) p = some (.dir el cs2 ed) := by
  intro es
  induction es with
  | nil => intro _ idx el cs ed h; exact ⟨cs, h⟩
  | cons e rest ih =>
    intro hne idx el cs ed h
    obtain ⟨cs1, h1⟩ := addChild_keeps_dir (hne e (by simp)) h (mkNode e)
    obtain ⟨cs2, h2⟩ := ih (fun x hx => hne x (by simp [hx])) _ el cs1 ed h1
    exact ⟨cs2, h2⟩

/-- Marking a present directory sets its `entriesLoaded`. -/
theorem markLoaded_marks {T : Type} {idx : Index T} {p : String} {el : Bool}
    {cs : List String} {ed : Option T}
    (h : getInode idx p = some (.dir el cs ed)) :
    getInode (markLoaded idx p) p = some (.dir true cs ed) := by
  simp only [markLoaded, h]
  exact getInode_set_self _ _ _

/-- The walk from `p` only modifies paths strictly longer than `p`: every
path at most as long as `p` keeps its index entry. -/
theorem loadGo_preserves {T : Type} (rd : RdProvider T) :
    ∀ (segs : List String) (idx : Index T) (p : String) (log : List String)
      (q : String), (∀ s ∈ segs, s ≠ "") →
      q.data.length ≤ p.data.length →
      getInode ((loadGo rd segs idx p log).1) q = getInode idx q := by
  intro segs
  induction segs with
  | nil => intro idx p log q _ _; rfl
  | cons seg rest ih =>
    intro idx p log q hne hq
    have hseg : seg ≠ "" := hne seg (by simp)
    have hlt : p.data.length < (joinPath p seg).data.length :=
      (strictPref_joinPath p hseg).2
    have hne2 : ∀ s ∈ rest, s ≠ "" := fun s hs => hne s (by simp [hs])
    simp only [loadGo]
    cases hi : getInode idx (joinPath p seg) with
    | none => rfl
    | some nd =>
      cases nd with
      | file st ed => rfl
      | dir el cs ed =>
        cases el with
        | true =>
          dsimp only
          rw [if_pos rfl]
          exact ih idx (joinPath p seg) log q hne2
            (le_trans hq (le_of_lt hlt))
        | false =>
          dsimp only
          rw [if_neg (by simp)]
          cases hr : rd (joinPath p seg) ed with
          | error e => rfl
          | ok es =>
            rw [ih _ (joinPath p seg) _ q hne2 (le_trans hq (le_of_lt hlt))]
            rw [markLoaded_preserves (ne_of_len_lt (lt_of_le_of_lt hq hlt))]
            exact insertEntries_preserves (lt_of_le_of_lt hq hlt) es idx

/-- The walk's result depends on the incoming log only by prefixing. -/
theorem loadGo_log_split {T : Type} (rd : RdProvider T) :
    ∀ (segs : List String) (idx : Index T) (p : String) (log : List String),
      (loadGo rd segs idx p log).1 = (loadGo rd segs idx p []).1 ∧
      (loadGo rd segs idx p log).2.1 = log ++ (loadGo rd segs idx p []).2.1 ∧
      (loadGo rd segs idx p log).2.2 = (loadGo rd segs idx p []).2.2 := by
  intro segs
  induction segs with
  | nil => intro idx p log; exact ⟨rfl, by simp [loadGo], rfl⟩
  | cons seg rest ih =>
    intro idx p log
    simp only [loadGo]
    cases hi : getInode idx (joinPath p seg) with
    | none => exact ⟨rfl, by simp, rfl⟩
    | some nd =>
      cases nd with
      | file st ed => exact ⟨rfl, by simp, rfl⟩
      | dir el cs ed =>
        cases el with
        | true =>
          dsimp only
          rw [if_pos rfl, if_pos rfl]
          exact ih idx (joinPath p seg) log
        | false =>
          dsimp only
          rw [if_neg (by simp), if_neg (by simp)]
          cases hr : rd (joinPath p seg) ed with
          | error e => exact ⟨rfl, by simp, rfl⟩
          | ok es =>
            dsimp only
            simp only [List.nil_append]
            obtain ⟨ha, hb, hc⟩ :=
              ih (markLoaded (insertEntries idx (joinPath p seg) es)
                (joinPath p seg)) (joinPath p seg) (log ++ [joinPath p seg])
            obtain ⟨ha2, hb2, hc2⟩ :=
              ih (markLoaded (insertEntries idx (joinPath p seg) es)
                (joinPath p seg)) (joinPath p seg) [joinPath p seg]
            refine ⟨ha.trans ha2.symm, ?_, hc.trans hc2.symm⟩
            rw [hb, hb2, List.append_assoc]

/-- The provider-invocation log of a walk from `p` is a chain of proper
prefixes, each properly extending `p`. -/
theorem loadGo_log_chain {T : Type} (rd : RdProvider T) :
    ∀ (segs : List String) (idx : Index T) (p : String),
      (∀ s ∈ segs, s ≠ "") →
      List.Chain' strictPref ((loadGo rd segs idx p []).2.1) ∧
      (∀ q ∈ (loadGo rd segs idx p []).2.1, strictPref p q) := by
  intro segs
  induction segs with
  | nil => intro idx p _; exact ⟨List.chain'_nil, by simp [loadGo]⟩
  | cons seg rest ih =>
    intro idx p hne
    have hseg : seg ≠ "" := hne seg (by simp)
    have hne2 : ∀ s ∈ rest, s ≠ "" := fun s hs => hne s (by simp [hs])
    have hpp : strictPref p (joinPath p seg) := strictPref_joinPath p hseg
    simp only [loadGo]
    cases hi : getInode idx (joinPath p seg) with
    | none => exact ⟨List.chain'_nil, by simp⟩
    | some nd =>
      cases nd with
      | file st ed => exact ⟨List.chain'_nil, by simp⟩
      | dir el cs ed =>
        cases el with
        | true =>
          dsimp only
          rw [if_pos rfl]
          obtain ⟨hch, hall⟩ := ih idx (joinPath p seg) hne2
          exact ⟨hch, fun q hq => strictPref_trans hpp (hall q hq)⟩
        | false =>
          dsimp only
          rw [if_neg (by simp)]
          cases hr : rd (joinPath p seg) ed with
          | error e =>
            refine ⟨?_, ?_⟩
            · simp
            · intro q hq
              simp only [List.nil_append, List.mem_singleton] at hq
              subst hq
              exact hpp
          | ok es =>
            obtain ⟨hch, hall⟩ :=
              ih (markLoaded (insertEntries idx (joinPath p seg) es)
                (joinPath p seg)) (joinPath p seg) hne2
            obtain ⟨-, hb, -⟩ :=
              loadGo_log_split rd rest
                (markLoaded (insertEntries idx (joinPath p seg) es)
                  (joinPath p seg)) (joinPath p seg) [joinPath p seg]
            rw [List.nil_append, hb, List.singleton_append]
            constructor
            · rw [List.chain'_cons']
              refine ⟨?_, hch⟩
              intro y hy
              exact hall y (List.mem_of_mem_head? hy)
            · intro q hq
              rcases List.mem_cons.mp hq with h | h
              · subst h
                exact hpp
              · exact strictPref_trans hpp (hall q h)

/-- C4: `loadEntry` processes a path's segments strictly root-to-leaf:
its listing-provider invocations form a chain of proper path prefixes
(each call's path properly extends the previous one, so a segment is only
reached after all earlier ones settled — the embedding of the `next` loop
is sequential by construction); and when the accumulated prefix of the
next segment is absent from the index or present but not a directory, the
walk stops with success: the index and log are unchanged and no further
segment is attempted, whatever the remaining segments are. -/
theorem loadEntry_walk_order {T : Type} (rd : RdProvider T) :
    (∀ (idx : Index T) (path : String) (loadBase : Bool),
       List.Chain' strictPref (loadEntry rd idx path loadBase).2.1) ∧
    (∀ (idx : Index T) (p seg : String) (rest log : List String),
       isDirInode (getInode idx (joinPath p seg)) = false →
       loadGo rd (seg :: rest) idx p log = (idx, log, Except.ok ())) := by
  constructor
  · intro idx path loadBase
    exact (loadGo_log_chain rd (loadSegs path loadBase) idx ""
      (loadSegs_ne_empty path loadBase)).1
  · intro idx p seg rest log hnd
    simp only [loadGo]
    cases hi : getInode idx (joinPath p seg) with
    | none => rfl
    | some nd =>
      cases nd with
      | file st ed => rfl
      | dir el cs ed =>
        rw [hi] at hnd
        simp [isDirInode] at hnd

/-- A provider that lists nothing, for the witnesses. -/
def rdNone : RdProvider Unit := fun _ _ => Except.ok []

theorem loadEntry_walk_order_witness :
    List.Chain' strictPref (loadEntry rdNone ([] : Index Unit) "/a" true).2.1 ∧
    loadGo rdNone ["a"] ([] : Index Unit) "" [] = ([], [], Except.ok ()) :=
  ⟨(loadEntry_walk_order rdNone).1 [] "/a" true,
   (loadEntry_walk_order rdNone).2 [] "" "a" [] [] rfl⟩

/-- C10: For the root path, `loadEntry('/', false)` computes an empty
segment list and completes successfully without touching the index or
invoking the listing provider; hence `stat` and `open` of the root path
run their raw operation on the unchanged index with an empty
listing-provider invocation log. -/
theorem root_load_noop {T : Type} (rd : RdProvider T)
    (statP : Option (StatProvider T)) (rfP : RfProvider T) (idx : Index T)
    (flags : FileFlag) :
    loadSegs "/" false = [] ∧
    loadEntry rd idx "/" false = (idx, [], Except.ok ()) ∧
    (wrappedStat rd statP idx "/").1 = statRaw statP idx "/" ∧
    (wrappedStat rd statP idx "/").2.1 = [] ∧
    (wrappedOpen rd rfP idx "/" flags).1 = openRaw rfP idx "/" flags ∧
    (wrappedOpen rd rfP idx "/" flags).2.1 = [] := by
  have hsegs : loadSegs "/" false = [] := by decide
  have hle : loadEntry rd idx "/" false = (idx, [], Except.ok ()) := by
    simp only [loadEntry, hsegs]
    rfl
  refine ⟨hsegs, hle, ?_, ?_, ?_, ?_⟩ <;>
    simp [wrappedStat, wrappedOpen, hle, finallyRun]

/-- C7: `open` with write-intent flags delivers permission-denied for
every path and every index — in particular for a nonexistent path, where
it is permission-denied rather than not-found, because the write check
precedes the index lookup. -/
theorem open_write_eperm {T : Type} (rd : RdProvider T) (rfP : RfProvider T)
    (idx : Index T) (p : String) (flags : FileFlag)
    (hw : flags.isWriteable = true) :
    (wrappedOpen rd rfP idx p flags).1.1 = .error (.EPERM p) := by
  have hraw : ∀ (idx2 : Index T),
      (openRaw rfP idx2 p flags).1 = .error (.EPERM p) := by
    intro idx2
    rw [openRaw, if_pos hw]
  cases hl : (loadEntry rd idx p false).2.2 with
  | ok v => simp [wrappedOpen, finallyRun, hl, hraw]
  | error e => simp [wrappedOpen, finallyRun, hl, hraw]

/-- A read-file provider returning empty content, for the witnesses. -/
def rfNone : RfProvider Unit := fun _ _ => Except.ok []

theorem open_write_eperm_witness :
    (wrappedOpen rdNone rfNone ([] : Index Unit) "/x"
      ⟨true, ActionType.NOP⟩).1.1 = .error (.EPERM "/x") :=
  open_write_eperm rdNone rfNone [] "/x" ⟨true, ActionType.NOP⟩ rfl

/-- C9: When the pre-load fails, the wrapped `stat`, `open` and `readdir`
still run their raw operation against the partially populated index that
the failed load produced, and that raw result is what the callback
delivers; the listing-provider failure only settles the unobserved
composite promise.  When the target is absent from that partial index, the
delivered result is not-found. -/
theorem wrapped_runs_raw_on_load_failure {T : Type} (rd : RdProvider T)
    (statP : Option (StatProvider T)) (rfP : RfProvider T) (idx : Index T)
    (p : String) (flags : FileFlag) (e1 e3 : String)
    (h1 : (loadEntry rd idx p false).2.2 = .error e1)
    (h3 : (loadEntry rd idx p true).2.2 = .error e3) :
    (wrappedStat rd statP idx p).1 =
      statRaw statP (loadEntry rd idx p false).1 p ∧
    (wrappedStat rd statP idx p).2.2 = .error e1 ∧
    (wrappedOpen rd rfP idx p flags).1 =
      openRaw rfP (loadEntry rd idx p false).1 p flags ∧
    (wrappedOpen rd rfP idx p flags).2.2 = .error e1 ∧
    (wrappedReaddir rd idx p).1 =
      readdirRaw (loadEntry rd idx p true).1 p ∧
    (wrappedReaddir rd idx p).2.2 = .error e3 ∧
    (getInode (loadEntry rd idx p false).1 p = none →
       (wrappedStat rd statP idx p).1.1 = .error (.ENOENT p)) := by
  refine ⟨?_, ?_, ?_, ?_, ?_, ?_, ?_⟩
  · simp [wrappedStat, finallyRun, h1]
  · simp [wrappedStat, finallyRun, h1]
  · simp [wrappedOpen, finallyRun, h1]
  · simp [wrappedOpen, finallyRun, h1]
  · simp [wrappedReaddir, finallyRun, h3]
  · simp [wrappedReaddir, finallyRun, h3]
  · intro habs
    simp [wrappedStat, finallyRun, h1, statRaw, habs]

/-- The index holding only an unloaded root, for the witnesses. -/
def idxRoot : Index Unit := [("/", Inode.dir false [] none)]

/-- A listing provider that always rejects, for the witnesses. -/
def rdBoom : RdProvider Unit := fun _ _ => Except.error "boom"

theorem wrapped_runs_raw_on_load_failure_witness :
    (wrappedStat rdBoom none idxRoot "/a").1 =
      statRaw none (loadEntry rdBoom idxRoot "/a" false).1 "/a" ∧
    (wrappedStat rdBoom none idxRoot "/a").2.2 = .error "boom" ∧
    (wrappedStat rdBoom none idxRoot "/a").1.1 = .error (.ENOENT "/a") :=
  ⟨(wrapped_runs_raw_on_load_failure rdBoom none rfNone idxRoot "/a"
      ⟨false, ActionType.NOP⟩ "boom" "boom" rfl rfl).1,
   (wrapped_runs_raw_on_load_failure rdBoom none rfNone idxRoot "/a"
      ⟨false, ActionType.NOP⟩ "boom" "boom" rfl rfl).2.1,
   (wrapped_runs_raw_on_load_failure rdBoom none rfNone idxRoot "/a"
      ⟨false, ActionType.NOP⟩ "boom" "boom" rfl
      rfl).2.2.2.2.2.2 (by decide)⟩

/-- Unfolding: the walk stops successfully when the next accumulated path
is absent. -/
theorem loadGo_cons_none {T : Type} (rd : RdProvider T) {idx : Index T}
    {p seg : String} (hi0 : getInode idx (joinPath p seg) = none)
    (rest log : List String) :
    loadGo rd (seg :: rest) idx p log = (idx, log, Except.ok ()) := by
  simp only [loadGo, hi0]

/-- Unfolding: the walk stops successfully when the next accumulated path
is a file. -/
theorem loadGo_cons_file {T : Type} (rd : RdProvider T) {idx : Index T}
    {p seg : String} {st : FStats} {ed : Option T}
    (hi0 : getInode idx (joinPath p seg) = some (.file st ed))
    (rest log : List String) :
    loadGo rd (seg :: rest) idx p log = (idx, log, Except.ok ()) := by
  simp only [loadGo, hi0]

/-- Unfolding: a loaded directory is skipped without a fetch. -/
theorem loadGo_cons_loaded {T : Type} (rd : RdProvider T) {idx : Index T}
    {p seg : String} {cs : List String} {ed : Option T}
    (hi0 : getInode idx (joinPath p seg) = some (.dir true cs ed))
    (rest log : List String) :
    loadGo rd (seg :: rest) idx p log =
      loadGo rd rest idx (joinPath p seg) log := by
  simp only [loadGo, hi0]
  rw [if_pos trivial]

/-- Unfolding: a rejected listing call aborts the walk, leaving the index
as it was and propagating the error. -/
theorem loadGo_cons_error {T : Type} (rd : RdProvider T) {idx : Index T}
    {p seg : String} {cs : List String} {ed : Option T} {e : String}
    (hi0 : getInode idx (joinPath p seg) = some (.dir false cs ed))
    (hr : rd (joinPath p seg) ed = Except.error e) (rest log : List String) :
    loadGo rd (seg :: rest) idx p log =
      (idx, log ++ [joinPath p seg], Except.error e) := by
  simp only [loadGo, hi0, hr]
  simp

/-- Unfolding: a fulfilled listing call inserts the entries, marks the
directory and advances. -/
theorem loadGo_cons_fetch {T : Type} (rd : RdProvider T) {idx : Index T}
    {p seg : String} {cs : List String} {ed : Option T}
    {es : List (FileEntry T)}
    (hi0 : getInode idx (joinPath p seg) = some (.dir false cs ed))
    (hr : rd (joinPath p seg) ed = Except.ok es) (rest log : List String) :
    loadGo rd (seg :: rest) idx p log =
      loadGo rd rest
        (markLoaded (insertEntries idx (joinPath p seg) es) (joinPath p seg))
        (joinPath p seg) (log ++ [joinPath p seg]) := by
  simp only [loadGo, hi0, hr]
  simp

/-- Every accumulated path properly extends the walk's starting path. -/
theorem accPaths_all :
    ∀ (segs : List String) (p : String), (∀ s ∈ segs, s ≠ "") →
      ∀ q ∈ accPaths p segs, strictPref p q := by
  intro segs
  induction segs with
  | nil => intro p _ q hq; simp [accPaths] at hq
  | cons seg rest ih =>
    intro p hne q hq
    have hseg : seg ≠ "" := hne seg (by simp)
    have hpp := strictPref_joinPath p hseg
    simp only [accPaths, List.mem_cons] at hq
    rcases hq with h | h
    · subst h
      exact hpp
    · exact strictPref_trans hpp
        (ih (joinPath p seg) (fun s hs => hne s (by simp [hs])) q h)

/-- The accumulated paths are pairwise ordered by proper prefix. -/
theorem accPaths_pairwise :
    ∀ (segs : List String) (p : String), (∀ s ∈ segs, s ≠ "") →
      List.Pairwise strictPref (accPaths p segs) := by
  intro segs
  induction segs with
  | nil => intro p _; exact List.Pairwise.nil
  | cons seg rest ih =>
    intro p hne
    have hne2 : ∀ s ∈ rest, s ≠ "" := fun s hs => hne s (by simp [hs])
    simp only [accPaths]
    exact List.pairwise_cons.mpr
      ⟨accPaths_all rest (joinPath p seg) hne2, ih (joinPath p seg) hne2⟩

/-- A successful walk splits the accumulated paths: an initial block that
ends up as loaded directories in the final index, then (possibly) a first
unresolvable path — absent or not a directory. -/
theorem loadGo_marks {T : Type} {rd : RdProvider T} (hok : NamesOk rd) :
    ∀ (segs : List String) (idx : Index T) (p : String),
      (∀ s ∈ segs, s ≠ "") →
      (loadGo rd segs idx p []).2.2 = Except.ok () →
      ∃ pre post, accPaths p segs = pre ++ post ∧
        (∀ q ∈ pre,
           isLoadedDir (getInode (loadGo rd segs idx p []).1 q) = true) ∧
        (∀ q ∈ post.head?,
           isDirInode (getInode (loadGo rd segs idx p []).1 q) = false) := by
  intro segs
  induction segs with
  | nil =>
    intro idx p _ _
    exact ⟨[], [], rfl, by simp, by simp⟩
  | cons seg rest ih =>
    intro idx p hne hok2
    have hseg : seg ≠ "" := hne seg (by simp)
    have hne2 : ∀ s ∈ rest, s ≠ "" := fun s hs => hne s (by simp [hs])
    cases hi0 : getInode idx (joinPath p seg) with
    | none =>
      rw [loadGo_cons_none rd hi0 rest []]
      refine ⟨[], accPaths p (seg :: rest), by simp, by simp, ?_⟩
      intro q hq
      simp only [accPaths, List.head?_cons, Option.mem_def,
        Option.some.injEq] at hq
      subst hq
      simp [isDirInode, hi0]
    | some nd =>
      cases nd with
      | file st ed =>
        rw [loadGo_cons_file rd hi0 rest []]
        refine ⟨[], accPaths p (seg :: rest), by simp, by simp, ?_⟩
        intro q hq
        simp only [accPaths, List.head?_cons, Option.mem_def,
          Option.some.injEq] at hq
        subst hq
        simp [isDirInode, hi0]
      | dir el cs ed =>
        cases el with
        | true =>
          rw [loadGo_cons_loaded rd hi0 rest []] at hok2 ⊢
          obtain ⟨pre, post, hsplit, hpre, hpost⟩ :=
            ih idx (joinPath p seg) hne2 hok2
          refine ⟨joinPath p seg :: pre, post, ?_, ?_, hpost⟩
          · simp only [accPaths, hsplit, List.cons_append]
          · intro q hq
            rcases List.mem_cons.mp hq with h | h
            · subst h
              rw [loadGo_preserves rd rest idx (joinPath p seg) []
                (joinPath p seg) hne2 (le_refl _), hi0]
              rfl
            · exact hpre q h
        | false =>
          cases hr : rd (joinPath p seg) ed with
          | error e0 =>
            rw [loadGo_cons_error rd hi0 hr rest []] at hok2
            exact absurd hok2 (by simp)
          | ok es =>
            rw [loadGo_cons_fetch rd hi0 hr rest []] at hok2 ⊢
            simp only [List.nil_append] at hok2 ⊢
            obtain ⟨hsa, hsb, hsc⟩ := loadGo_log_split rd rest
              (markLoaded (insertEntries idx (joinPath p seg) es)
                (joinPath p seg)) (joinPath p seg) [joinPath p seg]
            rw [hsc] at hok2
            obtain ⟨cs1, h1⟩ := insertEntries_keeps_dir es
              (hok _ _ _ hr) idx false cs ed hi0
            have hmk := markLoaded_marks h1
            obtain ⟨pre, post, hsplit, hpre, hpost⟩ := ih
              (markLoaded (insertEntries idx (joinPath p seg) es)
                (joinPath p seg)) (joinPath p seg) hne2 hok2
            refine ⟨joinPath p seg :: pre, post, ?_, ?_, ?_⟩
            · simp only [accPaths, hsplit, List.cons_append]
            · intro q hq
              rcases List.mem_cons.mp hq with h | h
              · subst h
                rw [hsa, loadGo_preserves rd rest _ (joinPath p seg) []
                  (joinPath p seg) hne2 (le_refl _), hmk]
                rfl
              · rw [hsa]
                exact hpre q h
            · intro q hq
              rw [hsa]
              exact hpost q hq

/-- A failing walk ends in a rejected listing call: the log closes with
the failing directory, which stays present and unmarked with its
extend-data, the provider's error is the walk's outcome, and every
earlier-fetched directory of the log remains marked in the final index
(no rollback). -/
theorem loadGo_failure {T : Type} {rd : RdProvider T} (hok : NamesOk rd) :
    ∀ (segs : List String) (idx : Index T) (p : String) (e : String),
      (∀ s ∈ segs, s ≠ "") →
      (loadGo rd segs idx p []).2.2 = Except.error e →
      ∃ log0 t ed cs,
        (loadGo rd segs idx p []).2.1 = log0 ++ [t] ∧
        rd t ed = Except.error e ∧
        getInode (loadGo rd segs idx p []).1 t =
          some (.dir false cs ed) ∧
        ∀ q ∈ log0,
          isLoadedDir (getInode (loadGo rd segs idx p []).1 q) = true := by
  intro segs
  induction segs with
  | nil =>
    intro idx p e _ hf
    exact absurd hf (by simp [loadGo])
  | cons seg rest ih =>
    intro idx p e hne hf
    have hseg : seg ≠ "" := hne seg (by simp)
    have hne2 : ∀ s ∈ rest, s ≠ "" := fun s hs => hne s (by simp [hs])
    cases hi0 : getInode idx (joinPath p seg) with
    | none =>
      rw [loadGo_cons_none rd hi0 rest []] at hf
      exact absurd hf (by simp)
    | some nd =>
      cases nd with
      | file st ed =>
        rw [loadGo_cons_file rd hi0 rest []] at hf
        exact absurd hf (by simp)
      | dir el cs ed =>
        cases el with
        | true =>
          rw [loadGo_cons_loaded rd hi0 rest []] at hf ⊢
          exact ih idx (joinPath p seg) e hne2 hf
        | false =>
          cases hr : rd (joinPath p seg) ed with
          | error e0 =>
            rw [loadGo_cons_error rd hi0 hr rest []] at hf ⊢
            have he : e0 = e := by simpa using hf
            subst he
            exact ⟨[], joinPath p seg, ed, cs, by simp, hr, hi0, by simp⟩
          | ok es =>
            rw [loadGo_cons_fetch rd hi0 hr rest []] at hf ⊢
            simp only [List.nil_append] at hf ⊢
            obtain ⟨hsa, hsb, hsc⟩ := loadGo_log_split rd rest
              (markLoaded (insertEntries idx (joinPath p seg) es)
                (joinPath p seg)) (joinPath p seg) [joinPath p seg]
            rw [hsc] at hf
            obtain ⟨log0, t, ed2, cs2, ha, hb, hc, hd⟩ := ih
              (markLoaded (insertEntries idx (joinPath p seg) es)
                (joinPath p seg)) (joinPath p seg) e hne2 hf
            refine ⟨joinPath p seg :: log0, t, ed2, cs2, ?_, hb, ?_, ?_⟩
            · rw [hsb, ha]
              simp
            · rw [hsa]
              exact hc
            · intro q hq
              rcases List.mem_cons.mp hq with h | h
              · subst h
                rw [hsa, loadGo_preserves rd rest _ (joinPath p seg) []
                  (joinPath p seg) hne2 (le_refl _)]
                obtain ⟨cs1, h1⟩ := insertEntries_keeps_dir es
                  (hok _ _ _ hr) idx false cs ed hi0
                rw [markLoaded_marks h1]
                rfl
              · rw [hsa]
                exact hd q h

/-- C5: For every path, after `loadEntry(path, false)` completes
successfully (with a listing provider returning genuine path-component
names), the chain of ancestor prefixes of the path splits into an initial
block, each of whose members is present in the final index as a directory
with `entriesLoaded = true`, followed — when the walk stopped early — by a
first unresolvable prefix (absent from the index or present but not a
directory); that stopping prefix is a proper prefix of every remaining
ancestor, which are therefore themselves unresolvable through it. -/
theorem loadEntry_marks_ancestors {T : Type} (rd : RdProvider T)
    (idx : Index T) (path : String) (hok : NamesOk rd)
    (hsucc : (loadEntry rd idx path false).2.2 = Except.ok ()) :
    ∃ pre post,
      accPaths "" (loadSegs path false) = pre ++ post ∧
      (∀ q ∈ pre,
         isLoadedDir (getInode (loadEntry rd idx path false).1 q) = true) ∧
      (∀ q ∈ post.head?,
         isDirInode (getInode (loadEntry rd idx path false).1 q) = false) ∧
      (∀ q ∈ post.head?, ∀ q2 ∈ post.tail, strictPref q q2) := by
  obtain ⟨pre, post, hsplit, hpre, hpost⟩ :=
    loadGo_marks hok (loadSegs path false) idx ""
      (loadSegs_ne_empty path false) hsucc
  refine ⟨pre, post, hsplit, hpre, hpost, ?_⟩
  intro q hq q2 hq2
  have hpw := accPaths_pairwise (loadSegs path false) ""
    (loadSegs_ne_empty path false)
  rw [hsplit] at hpw
  have hpost2 := (List.pairwise_append.mp hpw).2.1
  cases post with
  | nil => simp at hq
  | cons a l =>
    simp only [List.head?_cons, Option.mem_def, Option.some.injEq] at hq
    subst hq
    simp only [List.tail_cons] at hq2
    exact (List.pairwise_cons.mp hpost2).1 q2 hq2

/-- A two-level listing provider for the C5 witness. -/
def rdTwo : RdProvider Unit := fun p _ =>
  if p = "/" then Except.ok [⟨"a", FileType.DIRECTORY, none⟩]
  else if p = "/a" then Except.ok [⟨"b", FileType.FILE, none⟩]
  else Except.error "missing"

theorem rdTwo_namesOk : NamesOk rdTwo := by
  intro p ed es h e he
  simp only [rdTwo] at h
  split_ifs at h with h1 h2
  · injection h with h
    subst h
    simp only [List.mem_singleton] at he
    subst he
    decide
  · injection h with h
    subst h
    simp only [List.mem_singleton] at he
    subst he
    decide

theorem loadEntry_marks_ancestors_witness :
    ∃ pre post,
      accPaths "" (loadSegs "/a/b" false) = pre ++ post ∧
      (∀ q ∈ pre,
         isLoadedDir (getInode (loadEntry rdTwo idxRoot "/a/b" false).1 q) =
           true) ∧
      (∀ q ∈ post.head?,
         isDirInode (getInode (loadEntry rdTwo idxRoot "/a/b" false).1 q) =
           false) ∧
      (∀ q ∈ post.head?, ∀ q2 ∈ post.tail, strictPref q q2) :=
  loadEntry_marks_ancestors rdTwo idxRoot "/a/b" rdTwo_namesOk rfl

/-- C6: For every path, when the listing provider fails during
`loadEntry`, the walk aborts: the invocation log ends at the failing
directory, whose call's rejection is exactly the error `loadEntry`
propagates to its caller; in the final index the failing directory is
still present, unmarked, with its extend-data, and every directory the
walk had already fetched remains marked (no rollback). -/
theorem loadEntry_failure_no_rollback {T : Type} (rd : RdProvider T)
    (idx : Index T) (path : String) (loadBase : Bool) (e : String)
    (hok : NamesOk rd)
    (hfail : (loadEntry rd idx path loadBase).2.2 = Except.error e) :
    ∃ log0 t ed cs,
      (loadEntry rd idx path loadBase).2.1 = log0 ++ [t] ∧
      rd t ed = Except.error e ∧
      getInode (loadEntry rd idx path loadBase).1 t =
        some (.dir false cs ed) ∧
      ∀ q ∈ log0,
        isLoadedDir (getInode (loadEntry rd idx path loadBase).1 q) =
          true :=
  loadGo_failure hok (loadSegs path loadBase) idx "" e
    (loadSegs_ne_empty path loadBase) hfail

/-- A provider failing below the root, for the C6 witness. -/
def rdFailA : RdProvider Unit := fun p _ =>
  if p = "/" then Except.ok [⟨"a", FileType.DIRECTORY, none⟩]
  else Except.error "boom2"

theorem rdFailA_namesOk : NamesOk rdFailA := by
  intro p ed es h e he
  simp only [rdFailA] at h
  split_ifs at h with h1
  · injection h with h
    subst h
    simp only [List.mem_singleton] at he
    subst he
    decide

theorem loadEntry_failure_no_rollback_witness :
    ∃ log0 t ed cs,
      (loadEntry rdFailA idxRoot "/a/b" false).2.1 = log0 ++ [t] ∧
      rdFailA t ed = Except.error "boom2" ∧
      getInode (loadEntry rdFailA idxRoot "/a/b" false).1 t =
        some (.dir false cs ed) ∧
      ∀ q ∈ log0,
        isLoadedDir (getInode (loadEntry rdFailA idxRoot "/a/b" false).1 q) =
          true :=
  loadEntry_failure_no_rollback rdFailA idxRoot "/a/b" false "boom2"
    rdFailA_namesOk rfl

end DynFS
